import Mathlib

/-!
Verification of the Veryfy_Trans translation-proofing pipeline.

The Python sources are shallowly embedded over strings modelled as lists
of unicode characters.  File-system effects are made explicit: a file that
may be absent or unreadable is an optional content value, and a function
that may or may not write a file returns an optional written content.
-/

set_option maxRecDepth 10000

/-- Strings of the Python program, modelled as lists of unicode characters. -/
abbrev Str := List Char

/-- Whitespace recognised by the trims of the Python code
(the ASCII whitespace characters of str.strip / str.split). -/
def isPySpace (c : Char) : Bool :=
  c == (' ') || c == ('\t') || c == ('\n') || c == ('\r') || c == ('\x0b') || c == ('\x0c')

/-- Remove leading whitespace. -/
def lstripD (s : Str) : Str := s.dropWhile isPySpace

/-- Remove trailing whitespace. -/
def rstripD (s : Str) : Str := (s.reverse.dropWhile isPySpace).reverse

/-- Python str.strip(): remove leading and trailing whitespace. -/
def strip (s : Str) : Str := lstripD (rstripD s)

/-- Does the pattern occur at the very start of the text?
(Models the anchored comparison used by str.replace and the in operator.) -/
def strStarts : Str → Str → Bool
  | [], _ => true
  | _ :: _, [] => false
  | p :: ps, c :: cs => p == c && strStarts ps cs

/-- Python substring test: pattern in text. -/
def strContains : Str → Str → Bool
  | pat, [] => strStarts pat []
  | pat, c :: rest => strStarts pat (c :: rest) || strContains pat rest

/-- Scanning core of Python str.replace for a non-empty pattern: walk left to
right, at each position replace the leftmost occurrence and continue after it.
The fuel argument is the length of the scanned text, so it never runs out. -/
def pyReplaceFuel (old new : Str) : Nat → Str → Str
  | _, [] => []
  | 0, s => s
  | fuel + 1, c :: rest =>
    if strStarts old (c :: rest) then
      new ++ pyReplaceFuel old new fuel (rest.drop (old.length - 1))
    else
      c :: pyReplaceFuel old new fuel rest

/-- Python s.replace(old, new): replace every non-overlapping occurrence
of old in s, leftmost first.  An empty pattern matches between every pair
of characters and at both ends, as in Python. -/
def pyReplace (s old new : Str) : Str :=
  if old = [] then new ++ s.foldr (fun c acc => c :: (new ++ acc)) []
  else pyReplaceFuel old new s.length s

/-- Prepend a character to the first piece of a split (used by splitters). -/
def consHead (c : Char) : List Str → List Str
  | [] => [[c]]
  | p :: ps => (c :: p) :: ps

/-- Split a text at the leftmost non-overlapping occurrences of a non-empty
pattern; the pieces are the fragments between consecutive occurrences.
Fueled like pyReplaceFuel. -/
def splitFuel (old : Str) : Nat → Str → List Str
  | _, [] => [[]]
  | 0, s => [s]
  | fuel + 1, c :: rest =>
    if strStarts old (c :: rest) then
      [] :: splitFuel old fuel (rest.drop (old.length - 1))
    else
      consHead c (splitFuel old fuel rest)

/-- Split s at the leftmost non-overlapping occurrences of old. -/
def splitStr (old s : Str) : List Str := splitFuel old s.length s

/-- Join pieces, interposing the separator between consecutive pieces. -/
def joinSep (sep : Str) : List Str → Str
  | [] => []
  | [p] => p
  | p :: q :: ps => p ++ sep ++ joinSep sep (q :: ps)

/-! ## Log Reader: log_parser.py -/

/-- Python text-file line iteration: each line keeps its trailing newline,
a final fragment without newline is its own line, an empty file has no lines. -/
def pyLinesAux : Str → Str → List Str
  | acc, [] => if acc = [] then [] else [acc]
  | acc, c :: rest =>
    if c == ('\n') then (acc ++ [ '\n' ]) :: pyLinesAux [] rest
    else pyLinesAux (acc ++ [c]) rest

/-- The lines of a file's content, as Python iterates them. -/
def pyLines (s : Str) : List Str := pyLinesAux [] s

/-- Split a text at every newline character, keeping empty fields
(Python str.split applied to a newline, as a canonical line decomposition). -/
def splitNL : Str → List Str
  | [] => [[]]
  | c :: rest => if c == ('\n') then [] :: splitNL rest else consHead c (splitNL rest)

/-- Reassemble Python-style lines from split fields: every field but the
last gets its newline back, and an empty last field disappears. -/
def glueNL : List Str → List Str
  | [] => []
  | [l] => if l = [] then [] else [l]
  | l :: l2 :: ls => (l ++ [ '\n' ]) :: glueNL (l2 :: ls)

/-- log_parser.py parse_log: the input is the file content, or none when the
file is missing or unreadable (the caught FileNotFoundError / Exception paths,
which return an empty list).  Each line is stripped and empty results are
dropped, in file order. -/
def parse_log (file : Option Str) : List Str :=
  match file with
  | none => []
  | some content => ((pyLines content).map strip).filter (fun l => decide (l ≠ []))

/-! ## Pair Builder: fix_script.py create_replacement_map -/

/-- Python dict assignment d[k] = v on an insertion-ordered association list:
overwrite the value at an existing key in place, otherwise append at the end. -/
def dictInsert : List (Str × Str) → Str → Str → List (Str × Str)
  | [], k, v => [(k, v)]
  | q :: m, k, v => if q.1 == k then (q.1, v) :: m else q :: dictInsert m k v

/-- Python dict lookup on an insertion-ordered association list. -/
def mapLookup : List (Str × Str) → Str → Option Str
  | [], _ => none
  | q :: m, k => if q.1 == k then some q.2 else mapLookup m k

/-- Last-write-wins lookup in a plain pair sequence: the value of the last
pair whose first component is the key. -/
def lookupLast : List (Str × Str) → Str → Option Str
  | [], _ => none
  | q :: m, k =>
    match lookupLast m k with
    | some v => some v
    | none => if q.1 == k then some q.2 else none

/-- First-some choice on optional values. -/
def optOr (a b : Option Str) : Option Str :=
  match a with
  | some v => some v
  | none => b

/-- fix_script.py create_replacement_map: parse both logs, return none when
either parsed list is empty, otherwise build the dict of positional pairs. -/
def create_replacement_map (proof_log translated_log : Option Str) :
    Option (List (Str × Str)) :=
  if parse_log proof_log = [] ∨ parse_log translated_log = [] then none
  else
    some (((parse_log proof_log).zip (parse_log translated_log)).foldl
      (fun m q => dictInsert m q.1 q.2) [])

/-! ## Substitution Engine: fix_script.py main, replacement section -/

/-- One iteration of the replacement loop of fix_script.py main: if the
pattern occurs in the current text, replace all its occurrences and count
the rule as fired, otherwise leave the state unchanged. -/
def applyStep (st : Str × Nat) (rule : Str × Str) : Str × Nat :=
  if strContains rule.1 st.1 then (pyReplace st.1 rule.1 rule.2, st.2 + 1) else st

/-- Outcome of the substitution engine: final in-memory text, number of
fired rules, and whether the file was rewritten. -/
structure ApplyResult where
  content : Str
  modifiedCount : Nat
  wrote : Bool
deriving DecidableEq

/-- fix_script.py main, lines 69-84: run the rules in map order over the
progressively mutated text, then write back only when the text changed. -/
def fix_apply (replacements : List (Str × Str)) (content : Str) : ApplyResult :=
  let final := replacements.foldl applyStep (content, 0)
  ⟨final.1, final.2, !(final.1 == content)⟩

/-! ## Script Detector: check_languages.py -/

/-- One character of the Hiragana or Katakana blocks of japanese_pattern. -/
def isJapaneseChar (c : Char) : Bool :=
  (0x3040 ≤ c.toNat && c.toNat ≤ 0x309F) || (0x30A0 ≤ c.toNat && c.toNat ≤ 0x30FF)

/-- One character of the CJK Unified Ideographs block of chinese_pattern. -/
def isChineseChar (c : Char) : Bool :=
  0x4E00 ≤ c.toNat && c.toNat ≤ 0x9FFF

/-- The substitution re.sub applied to each line: delete every span from an
opening parenthesis to the nearest following closing parenthesis
(non-greedy, non-nested).  An opening parenthesis with no later closing one
is kept.  Fueled by the line length. -/
def removeParens : Nat → Str → Str
  | _, [] => []
  | 0, s => s
  | fuel + 1, c :: rest =>
    if c == ('(') && rest.contains (')') then
      removeParens fuel ((rest.dropWhile (fun d => !(d == (')')))).tail)
    else
      c :: removeParens fuel rest

/-- check_languages.py line 58: the check view of a line. -/
def line_to_check (line : Str) : Str := removeParens line.length line

/-- check_languages.py line 60: a line is flagged when its check view
matches japanese_pattern or chinese_pattern. -/
def flagged (line : Str) : Bool :=
  (line_to_check line).any isJapaneseChar || (line_to_check line).any isChineseChar

/-- check_languages.py lines 44-45: apply every configured replacement over
the whole content, each replacement text followed by one space. -/
def applyConfigured (replacements : List (Str × Str)) (content : Str) : Str :=
  replacements.foldl (fun c q => pyReplace c q.1 (q.2 ++ [ ' ' ])) content

/-- The two writes of one check_languages run: the rewritten content stored
back into the scanned document, and the lines written to the findings log. -/
structure ScanResult where
  written : Str
  logLines : List Str
deriving DecidableEq

/-- check_languages.py check_languages: none when the document path does not
exist (the early return on line 35, before any file is opened for writing).
Otherwise the document is rewritten with the configured replacements and the
findings log is overwritten with the stripped flagged lines; a some result
means both the document write and the log overwrite happened, even when the
flagged-line list is empty. -/
def check_languages (fileExists : Bool) (content : Str)
    (replacements : List (Str × Str)) : Option ScanResult :=
  if fileExists then
    some ⟨applyConfigured replacements content,
      ((splitNL (applyConfigured replacements content)).filter flagged).map strip⟩
  else none

/-! ## Helper lemmas about the scanning primitives -/

theorem strStarts_eq_append :
    ∀ (pat s : Str), strStarts pat s = true → s = pat ++ s.drop pat.length := by
  intro pat
  induction pat with
  | nil => intro s _; simp
  | cons p ps ih =>
    intro s h
    cases s with
    | nil => simp [strStarts] at h
    | cons c cs =>
      simp only [strStarts, Bool.and_eq_true, beq_iff_eq] at h
      obtain ⟨h1, h2⟩ := h
      subst h1
      have := ih cs h2
      simpa using this

theorem strStarts_mono :
    ∀ (pat u t : Str), strStarts pat u = true → strStarts pat (u ++ t) = true := by
  intro pat
  induction pat with
  | nil => intro u t _; simp [strStarts]
  | cons p ps ih =>
    intro u t h
    cases u with
    | nil => simp [strStarts] at h
    | cons a u2 =>
      simp only [strStarts, Bool.and_eq_true, beq_iff_eq] at h
      simp only [List.cons_append, strStarts, Bool.and_eq_true, beq_iff_eq]
      exact ⟨h.1, ih u2 t h.2⟩

theorem strContains_nil_eq (pat : Str) (h : pat ≠ []) : strContains pat [] = false := by
  cases pat with
  | nil => exact absurd rfl h
  | cons p ps => rfl

theorem consHead_ne_nil (c : Char) (l : List Str) : consHead c l ≠ [] := by
  cases l <;> simp [consHead]

theorem splitFuel_ne_nil (old : Str) :
    ∀ (fuel : Nat) (s : Str), splitFuel old fuel s ≠ [] := by
  intro fuel s
  match fuel, s with
  | _, [] => simp [splitFuel]
  | 0, c :: rest => simp [splitFuel]
  | fuel + 1, c :: rest =>
    simp only [splitFuel]
    split
    · simp
    · exact consHead_ne_nil c _

theorem joinSep_consHead (sep : Str) (c : Char) (p : Str) (ps : List Str) :
    joinSep sep (consHead c (p :: ps)) = c :: joinSep sep (p :: ps) := by
  cases ps <;> simp [consHead, joinSep]

theorem splitFuel_obtain (old : Str) (fuel : Nat) (s : Str) :
    ∃ p ps, splitFuel old fuel s = p :: ps := by
  cases h : splitFuel old fuel s with
  | nil => exact absurd h (splitFuel_ne_nil old fuel s)
  | cons p ps => exact ⟨p, ps, rfl⟩

theorem length_drop_le (rest : Str) (k : Nat) : (rest.drop k).length ≤ rest.length := by
  simp only [List.length_drop]
  omega

theorem joinSep_splitFuel (old : Str) (hold : old ≠ []) :
    ∀ (fuel : Nat) (s : Str), s.length ≤ fuel →
      joinSep old (splitFuel old fuel s) = s := by
  intro fuel
  induction fuel with
  | zero =>
    intro s hs
    have : s = [] := by
      cases s with
      | nil => rfl
      | cons c cs => simp at hs
    subst this
    simp [splitFuel, joinSep]
  | succ fuel ih =>
    intro s hs
    cases s with
    | nil => simp [splitFuel, joinSep]
    | cons c rest =>
      have hrest : rest.length ≤ fuel := by
        simp only [List.length_cons] at hs
        omega
      cases hc : strStarts old (c :: rest) with
      | true =>
        simp only [splitFuel, hc, if_true]
        obtain ⟨p, ps, hps⟩ := splitFuel_obtain old fuel (rest.drop (old.length - 1))
        have hrec := ih (rest.drop (old.length - 1))
          (le_trans (length_drop_le rest (old.length - 1)) hrest)
        rw [hps] at hrec ⊢
        have hstep : joinSep old ([] :: p :: ps) = old ++ joinSep old (p :: ps) := by
          simp [joinSep]
        rw [hstep, hrec]
        have hdecomp := strStarts_eq_append old (c :: rest) hc
        cases old with
        | nil => exact absurd rfl hold
        | cons a as =>
          simp only [List.length_cons, List.drop_succ_cons] at hdecomp
          simp only [List.length_cons, Nat.add_sub_cancel]
          exact hdecomp.symm
      | false =>
        simp only [splitFuel, hc, Bool.false_eq_true, if_false]
        obtain ⟨p, ps, hps⟩ := splitFuel_obtain old fuel rest
        have hrec := ih rest hrest
        rw [hps] at hrec ⊢
        rw [joinSep_consHead, hrec]

theorem pyReplaceFuel_joinSep (old new : Str) (_hold : old ≠ []) :
    ∀ (fuel : Nat) (s : Str), s.length ≤ fuel →
      pyReplaceFuel old new fuel s = joinSep new (splitFuel old fuel s) := by
  intro fuel
  induction fuel with
  | zero =>
    intro s hs
    have : s = [] := by
      cases s with
      | nil => rfl
      | cons c cs => simp at hs
    subst this
    simp [splitFuel, pyReplaceFuel, joinSep]
  | succ fuel ih =>
    intro s hs
    cases s with
    | nil => simp [splitFuel, pyReplaceFuel, joinSep]
    | cons c rest =>
      have hrest : rest.length ≤ fuel := by
        simp only [List.length_cons] at hs
        omega
      cases hc : strStarts old (c :: rest) with
      | true =>
        simp only [splitFuel, pyReplaceFuel, hc, if_true]
        obtain ⟨p, ps, hps⟩ := splitFuel_obtain old fuel (rest.drop (old.length - 1))
        have hrec := ih (rest.drop (old.length - 1))
          (le_trans (length_drop_le rest (old.length - 1)) hrest)
        rw [hps] at hrec ⊢
        rw [hrec]
        simp [joinSep]
      | false =>
        simp only [splitFuel, pyReplaceFuel, hc, Bool.false_eq_true, if_false]
        obtain ⟨p, ps, hps⟩ := splitFuel_obtain old fuel rest
        have hrec := ih rest hrest
        rw [hps] at hrec ⊢
        rw [hrec, joinSep_consHead]

theorem splitFuel_head_front (old : Str) :
    ∀ (fuel : Nat) (s p : Str) (ps : List Str),
      splitFuel old fuel s = p :: ps → ∃ t, s = p ++ t := by
  intro fuel
  induction fuel with
  | zero =>
    intro s p ps h
    cases s with
    | nil =>
      simp only [splitFuel, List.cons.injEq] at h
      exact ⟨[], by simp [h.1.symm]⟩
    | cons c rest =>
      simp only [splitFuel, List.cons.injEq] at h
      exact ⟨[], by simp [h.1.symm]⟩
  | succ fuel ih =>
    intro s p ps h
    cases s with
    | nil =>
      simp only [splitFuel, List.cons.injEq] at h
      exact ⟨[], by simp [h.1.symm]⟩
    | cons c rest =>
      cases hc : strStarts old (c :: rest) with
      | true =>
        simp only [splitFuel, hc, if_true, List.cons.injEq] at h
        exact ⟨c :: rest, by simp [h.1.symm]⟩
      | false =>
        simp only [splitFuel, hc, Bool.false_eq_true, if_false] at h
        obtain ⟨q, qs, hq⟩ := splitFuel_obtain old fuel rest
        rw [hq] at h
        simp only [consHead, List.cons.injEq] at h
        obtain ⟨t, ht⟩ := ih rest q qs hq
        refine ⟨t, ?_⟩
        rw [← h.1]
        simp [ht]

theorem splitFuel_no_occ (old : Str) (hold : old ≠ []) :
    ∀ (fuel : Nat) (s : Str), s.length ≤ fuel →
      ∀ p ∈ splitFuel old fuel s, strContains old p = false := by
  intro fuel
  induction fuel with
  | zero =>
    intro s hs p hp
    have : s = [] := by
      cases s with
      | nil => rfl
      | cons c cs => simp at hs
    subst this
    simp only [splitFuel, List.mem_singleton] at hp
    subst hp
    exact strContains_nil_eq old hold
  | succ fuel ih =>
    intro s hs p hp
    cases s with
    | nil =>
      simp only [splitFuel, List.mem_singleton] at hp
      subst hp
      exact strContains_nil_eq old hold
    | cons c rest =>
      have hrest : rest.length ≤ fuel := by
        simp only [List.length_cons] at hs
        omega
      cases hc : strStarts old (c :: rest) with
      | true =>
        simp only [splitFuel, hc, if_true, List.mem_cons] at hp
        rcases hp with hp | hp
        · subst hp
          exact strContains_nil_eq old hold
        · exact ih (rest.drop (old.length - 1))
            (le_trans (length_drop_le rest (old.length - 1)) hrest) p hp
      | false =>
        simp only [splitFuel, hc, Bool.false_eq_true, if_false] at hp
        obtain ⟨q, qs, hq⟩ := splitFuel_obtain old fuel rest
        rw [hq] at hp
        simp only [consHead, List.mem_cons] at hp
        rcases hp with hp | hp
        · subst hp
          have hq2 : strContains old q = false :=
            ih rest hrest q (by rw [hq]; exact List.mem_cons_self q qs)
          have hqpre : strStarts old (c :: q) = false := by
            cases hcq : strStarts old (c :: q) with
            | false => rfl
            | true =>
              obtain ⟨t, ht⟩ := splitFuel_head_front old fuel rest q qs hq
              have : strStarts old ((c :: q) ++ t) = true := strStarts_mono old (c :: q) t hcq
              rw [show (c :: q) ++ t = c :: rest by simp [ht]] at this
              rw [this] at hc
              exact absurd hc (by simp)
          simp [strContains, hqpre, hq2]
        · exact ih rest hrest p (by rw [hq]; exact List.mem_cons_of_mem q hp)

/-! ## Helper lemmas about trimming -/

theorem dropWhile_head_not (p : Char → Bool) :
    ∀ (l : Str) (c : Char) (t : Str), l.dropWhile p = c :: t → p c = false := by
  intro l
  induction l with
  | nil => intro c t h; simp [List.dropWhile] at h
  | cons a l ih =>
    intro c t h
    rw [List.dropWhile_cons] at h
    by_cases ha : p a = true
    · rw [if_pos ha] at h
      exact ih c t h
    · rw [if_neg ha] at h
      obtain ⟨h1, _⟩ := List.cons.injEq .. ▸ h
      rw [← h1]
      exact Bool.not_eq_true (p a) ▸ ha

theorem takeWhile_all_of (p : Char → Bool) :
    ∀ l : Str, (l.takeWhile p).all p = true := by
  intro l
  induction l with
  | nil => rfl
  | cons a l ih =>
    rw [List.takeWhile_cons]
    by_cases ha : p a = true
    · rw [if_pos ha]
      simp [List.all_cons, ha, ih]
    · rw [if_neg ha]
      rfl

theorem strip_decomp (s : Str) :
    ∃ pre suf, s = pre ++ strip s ++ suf ∧
      pre.all isPySpace = true ∧ suf.all isPySpace = true := by
  refine ⟨(rstripD s).takeWhile isPySpace, ((s.reverse).takeWhile isPySpace).reverse,
    ?_, takeWhile_all_of isPySpace (rstripD s), ?_⟩
  · have h1 : (rstripD s).takeWhile isPySpace ++ strip s = rstripD s := by
      simp only [strip, lstripD]
      exact List.takeWhile_append_dropWhile (p := isPySpace) (l := rstripD s)
    have h2 : rstripD s ++ ((s.reverse).takeWhile isPySpace).reverse = s := by
      have := List.takeWhile_append_dropWhile (p := isPySpace) (l := s.reverse)
      have h3 : s = ((s.reverse).takeWhile isPySpace ++ (s.reverse).dropWhile isPySpace).reverse := by
        rw [this, List.reverse_reverse]
      rw [List.reverse_append] at h3
      simpa [rstripD] using h3.symm
    calc s = rstripD s ++ ((s.reverse).takeWhile isPySpace).reverse := h2.symm
      _ = ((rstripD s).takeWhile isPySpace ++ strip s) ++
            ((s.reverse).takeWhile isPySpace).reverse := by rw [h1]
      _ = (rstripD s).takeWhile isPySpace ++ strip s ++
            ((s.reverse).takeWhile isPySpace).reverse := by rw [List.append_assoc]
  · have := takeWhile_all_of isPySpace s.reverse
    simp only [List.all_eq_true] at this ⊢
    intro x hx
    exact this x (List.mem_reverse.mp hx)

theorem strip_head_not_space (s : Str) (c : Char) (t : Str)
    (h : strip s = c :: t) : isPySpace c = false := by
  exact dropWhile_head_not isPySpace (rstripD s) c t (by simpa [strip, lstripD] using h)

theorem strip_last_not_space (s : Str) (c : Char) (t : Str)
    (h : strip s = t ++ [c]) : isPySpace c = false := by
  have hu : rstripD s = (rstripD s).takeWhile isPySpace ++ (t ++ [c]) := by
    conv_lhs => rw [← List.takeWhile_append_dropWhile (p := isPySpace) (l := rstripD s)]
    rw [show (rstripD s).dropWhile isPySpace = t ++ [c] by simpa [strip, lstripD] using h]
  have hrev : s.reverse.dropWhile isPySpace =
      c :: (t.reverse ++ ((rstripD s).takeWhile isPySpace).reverse) := by
    have : ((s.reverse.dropWhile isPySpace).reverse).reverse =
        (((rstripD s).takeWhile isPySpace ++ (t ++ [c])).reverse) := by
      rw [show (s.reverse.dropWhile isPySpace).reverse = rstripD s from rfl, ← hu]
    simpa [List.reverse_append] using this
  exact dropWhile_head_not isPySpace s.reverse c _ hrev

theorem strip_append_newline (l : Str) : strip (l ++ [ '\n' ]) = strip l := by
  have : rstripD (l ++ [ '\n' ]) = rstripD l := by
    simp only [rstripD, List.reverse_append, List.reverse_cons, List.reverse_nil,
      List.nil_append, List.singleton_append, List.dropWhile_cons]
    rw [if_pos (by decide)]
  simp [strip, this]

/-! ## Helper lemmas about the insertion-ordered dict -/

theorem mapLookup_dictInsert (m : List (Str × Str)) (k v k2 : Str) :
    mapLookup (dictInsert m k v) k2 = if k == k2 then some v else mapLookup m k2 := by
  induction m with
  | nil =>
    simp [dictInsert, mapLookup]
  | cons q m ih =>
    by_cases hq : q.1 = k
    · have hstep : dictInsert (q :: m) k v = (k, v) :: m := by
        simp [dictInsert, hq]
      rw [hstep]
      simp only [mapLookup, hq]
      by_cases hk : k = k2
      · simp [hk]
      · simp [hk]
    · have hstep : dictInsert (q :: m) k v = q :: dictInsert m k v := by
        simp [dictInsert, hq]
      rw [hstep]
      simp only [mapLookup, ih]
      by_cases hqk2 : q.1 = k2
      · have hk : ¬ k = k2 := fun h => hq (hqk2.trans h.symm)
        simp [hqk2, hk]
      · by_cases hk : k = k2
        · simp [hqk2, hk]
        · simp [hqk2, hk]

theorem optOr_none (a : Option Str) : optOr a none = a := by
  cases a <;> rfl

theorem mapLookup_foldl_dictInsert :
    ∀ (pairs : List (Str × Str)) (m0 : List (Str × Str)) (k : Str),
      mapLookup (pairs.foldl (fun m q => dictInsert m q.1 q.2) m0) k =
        optOr (lookupLast pairs k) (mapLookup m0 k) := by
  intro pairs
  induction pairs with
  | nil => intro m0 k; rfl
  | cons q qs ih =>
    intro m0 k
    simp only [List.foldl_cons, lookupLast]
    rw [ih (dictInsert m0 q.1 q.2) k, mapLookup_dictInsert]
    cases hlast : lookupLast qs k with
    | some v => rfl
    | none =>
      simp only [optOr]
      by_cases hk : q.1 == k
      · rw [if_pos hk, if_pos hk]
      · rw [if_neg (by simpa using hk), if_neg (by simpa using hk)]

/-! ## Helper lemmas relating Python line iteration to newline splitting -/

theorem splitNL_ne_nil : ∀ s : Str, splitNL s ≠ [] := by
  intro s
  cases s with
  | nil => simp [splitNL]
  | cons c rest =>
    simp only [splitNL]
    split
    · simp
    · exact consHead_ne_nil c _

theorem splitNL_obtain (s : Str) : ∃ l ls, splitNL s = l :: ls := by
  cases h : splitNL s with
  | nil => exact absurd h (splitNL_ne_nil s)
  | cons l ls => exact ⟨l, ls, rfl⟩

theorem pyLinesAux_glueNL :
    ∀ (s acc l : Str) (ls : List Str), splitNL s = l :: ls →
      pyLinesAux acc s = glueNL ((acc ++ l) :: ls) := by
  intro s
  induction s with
  | nil =>
    intro acc l ls h
    simp only [splitNL, List.cons.injEq] at h
    obtain ⟨h1, h2⟩ := h
    subst h1; subst h2
    simp [pyLinesAux, glueNL]
  | cons c rest ih =>
    intro acc l ls h
    by_cases hc : c = '\n'
    · subst hc
      simp only [splitNL, beq_self_eq_true, if_true, List.cons.injEq] at h
      obtain ⟨h1, h2⟩ := h
      subst h1; subst h2
      obtain ⟨l2, ls2, h2⟩ := splitNL_obtain rest
      have hrec := ih [] l2 ls2 h2
      simp only [List.nil_append] at hrec
      simp only [pyLinesAux, beq_self_eq_true, if_true, hrec, h2]
      simp [glueNL]
    · have hcb : (c == ('\n')) = false := by simpa using hc
      obtain ⟨l2, ls2, h2⟩ := splitNL_obtain rest
      simp only [splitNL, hcb, Bool.false_eq_true, if_false, h2, consHead,
        List.cons.injEq] at h
      obtain ⟨h1, h3⟩ := h
      subst h3
      have hrec := ih (acc ++ [c]) l2 ls2 h2
      simp only [pyLinesAux, hcb, Bool.false_eq_true, if_false, hrec]
      rw [← h1]
      simp

theorem glueNL_strip_filter :
    ∀ (ls : List Str) (l : Str),
      ((glueNL (l :: ls)).map strip).filter (fun x => decide (x ≠ [])) =
        (((l :: ls).map strip).filter (fun x => decide (x ≠ []))) := by
  intro ls
  induction ls with
  | nil =>
    intro l
    by_cases hl : l = []
    · subst hl
      simp [glueNL, strip, lstripD, rstripD]
    · simp [glueNL, hl]
  | cons l2 ls ih =>
    intro l
    simp only [glueNL, List.map_cons, List.filter_cons, strip_append_newline]
    rw [ih l2]
    simp only [List.map_cons, List.filter_cons]

/-! ## Helper lemmas about the replacement folds -/

theorem foldl_applyStep_absent :
    ∀ (repls : List (Str × Str)) (s : Str) (n : Nat),
      (∀ q ∈ repls, strContains q.1 s = false) →
      repls.foldl applyStep (s, n) = (s, n) := by
  intro repls
  induction repls with
  | nil => intro s n _; rfl
  | cons q qs ih =>
    intro s n h
    have hstep : applyStep (s, n) q = (s, n) := by
      simp [applyStep, h q (List.mem_cons_self q qs)]
    simp only [List.foldl_cons, hstep]
    exact ih s n (fun r hr => h r (List.mem_cons_of_mem q hr))

theorem applyConfigured_fixed :
    ∀ (repls : List (Str × Str)) (c : Str),
      (∀ q ∈ repls, pyReplace c q.1 (q.2 ++ [ ' ' ]) = c) →
      applyConfigured repls c = c := by
  intro repls
  induction repls with
  | nil => intro c _; rfl
  | cons q qs ih =>
    intro c h
    simp only [applyConfigured, List.foldl_cons, h q (List.mem_cons_self q qs)]
    exact ih c (fun r hr => h r (List.mem_cons_of_mem q hr))

/-! ## The claims -/

/-- C1: For every pair of log files, create_replacement_map returns none
exactly when either parsed line sequence is empty; otherwise the returned
mapping sends each key to the corrected line paired with the last finding
equal to that key in the positional zip of the two parsed sequences, which
stops at the shorter length — i-th finding to i-th corrected line, a later
duplicate finding overwriting an earlier pair's value. -/
theorem claim_C1 (p t : Option Str) :
    (create_replacement_map p t = none ↔ (parse_log p = [] ∨ parse_log t = [])) ∧
    ∀ m, create_replacement_map p t = some m →
      ∀ k, mapLookup m k = lookupLast ((parse_log p).zip (parse_log t)) k := by
  constructor
  · constructor
    · intro h
      by_cases hcond : parse_log p = [] ∨ parse_log t = []
      · exact hcond
      · rw [create_replacement_map, if_neg hcond] at h
        exact absurd h (by simp)
    · intro h
      rw [create_replacement_map, if_pos h]
  · intro m hm k
    by_cases hcond : parse_log p = [] ∨ parse_log t = []
    · rw [create_replacement_map, if_pos hcond] at hm
      exact absurd hm (by simp)
    · rw [create_replacement_map, if_neg hcond] at hm
      have hm2 := Option.some.inj hm
      rw [← hm2, mapLookup_foldl_dictInsert]
      simp only [mapLookup, optOr_none]

/-- C1 witness: a concrete run with a duplicated finding, where the later
pair's corrected line wins. -/
theorem claim_C1_witness :
    create_replacement_map (some [ 'A', '\n', 'A' ]) (some [ 'X', '\n', 'Y' ]) =
      some [([ 'A' ], [ 'Y' ])] ∧
    mapLookup [([ 'A' ], [ 'Y' ])] [ 'A' ] =
      lookupLast ((parse_log (some [ 'A', '\n', 'A' ])).zip
        (parse_log (some [ 'X', '\n', 'Y' ]))) [ 'A' ] :=
  ⟨by decide,
    (claim_C1 (some [ 'A', '\n', 'A' ]) (some [ 'X', '\n', 'Y' ])).2
      [([ 'A' ], [ 'Y' ])] (by decide) [ 'A' ]⟩

/-- C2: when no pattern of the replacement map occurs in the target document,
the substitution engine of fix_script main leaves the text unchanged, counts
zero applied rules, and does not write the file back. -/
theorem claim_C2 (repls : List (Str × Str)) (content : Str)
    (h : ∀ q ∈ repls, strContains q.1 content = false) :
    fix_apply repls content = ⟨content, 0, false⟩ := by
  simp only [fix_apply, foldl_applyStep_absent repls content 0 h]
  simp

/-- C2 witness: a concrete absent-pattern run. -/
theorem claim_C2_witness :
    fix_apply [([ 'x', 'y' ], [ 'z' ])] [ 'a', 'b' ] = ⟨[ 'a', 'b' ], 0, false⟩ :=
  claim_C2 [([ 'x', 'y' ], [ 'z' ])] [ 'a', 'b' ] (by decide)

/-- C3: rules are applied sequentially in insertion order against the
progressively mutated text, so on target foo with the map foo to bar then
bar to baz the result is baz, with both rules counted as fired. -/
theorem claim_C3 :
    (fix_apply [([ 'f', 'o', 'o' ], [ 'b', 'a', 'r' ]), ([ 'b', 'a', 'r' ], [ 'b', 'a', 'z' ])]
      [ 'f', 'o', 'o' ]).content = [ 'b', 'a', 'z' ] ∧
    (fix_apply [([ 'f', 'o', 'o' ], [ 'b', 'a', 'r' ]), ([ 'b', 'a', 'r' ], [ 'b', 'a', 'z' ])]
      [ 'f', 'o', 'o' ]).modifiedCount = 2 := by
  decide

/-- C4: a line is flagged exactly when the line with all non-nested,
shortest-match parenthesized spans deleted still has a character in the
Hiragana range U+3040-U+309F, the Katakana range U+30A0-U+30FF, or the CJK
Unified Ideographs range U+4E00-U+9FFF; in particular the parenthesized
Japanese example is not flagged while the bare one is. -/
theorem claim_C4 :
    (∀ line : Str, flagged line = true ↔
      ∃ c ∈ line_to_check line,
        (0x3040 ≤ c.toNat ∧ c.toNat ≤ 0x309F) ∨
        (0x30A0 ≤ c.toNat ∧ c.toNat ≤ 0x30FF) ∨
        (0x4E00 ≤ c.toNat ∧ c.toNat ≤ 0x9FFF)) ∧
    flagged ((String.toList ("hello (日本語) world"))) = false ∧
    flagged ((String.toList ("hello 日本語 world"))) = true := by
  refine ⟨?_, by decide, by decide⟩
  intro line
  simp only [flagged, Bool.or_eq_true, List.any_eq_true, isJapaneseChar, isChineseChar,
    Bool.and_eq_true, decide_eq_true_eq]
  constructor
  · rintro (⟨c, hc, h | h⟩ | ⟨c, hc, h⟩)
    · exact ⟨c, hc, Or.inl h⟩
    · exact ⟨c, hc, Or.inr (Or.inl h)⟩
    · exact ⟨c, hc, Or.inr (Or.inr h)⟩
  · rintro ⟨c, hc, h | h | h⟩
    · exact Or.inl ⟨c, hc, Or.inl h⟩
    · exact Or.inl ⟨c, hc, Or.inr h⟩
    · exact Or.inr ⟨c, hc, h⟩

/-- C5 counterexample: on the one-line document consisting of a space and a
Hiragana character, the detector logs the line with its leading space
removed, so the logged text is not the line with only a trailing trim
applied — the claim that leading whitespace is preserved is false. -/
theorem claim_C5_cex :
    check_languages true [ ' ', 'あ' ] [] = some ⟨[ ' ', 'あ' ], [[ 'あ' ]]⟩ ∧
    [ 'あ' ] ≠ rstripD [ ' ', 'あ' ] := by
  decide

/-- C5 as amended: for every flagged line, the text written to the findings
log is the line's post-rewrite content with leading AND trailing whitespace
trimmed — the logged text is obtained from the line by deleting a
whitespace-only front part and a whitespace-only back part, and it neither
starts nor ends with whitespace. -/
theorem claim_C5 (content : Str) (repls : List (Str × Str)) (r : ScanResult)
    (hr : check_languages true content repls = some r) :
    ∀ l ∈ r.logLines,
      ∃ line pre suf, line ∈ splitNL r.written ∧ flagged line = true ∧
        l = strip line ∧ line = pre ++ l ++ suf ∧
        pre.all isPySpace = true ∧ suf.all isPySpace = true ∧
        (∀ c t, l = c :: t → isPySpace c = false) ∧
        (∀ c t, l = t ++ [c] → isPySpace c = false) := by
  rw [check_languages, if_pos rfl] at hr
  have hr2 := Option.some.inj hr
  subst hr2
  intro l hl
  simp only [List.mem_map] at hl
  obtain ⟨line, hline, hstrip⟩ := hl
  rw [List.mem_filter] at hline
  obtain ⟨hmem, hflag⟩ := hline
  obtain ⟨pre, suf, hdec, hpre, hsuf⟩ := strip_decomp line
  refine ⟨line, pre, suf, hmem, hflag, hstrip.symm, ?_, hpre, hsuf, ?_, ?_⟩
  · rw [← hstrip]
    exact hdec
  · intro c t hct
    exact strip_head_not_space line c t (hstrip.trans hct)
  · intro c t hct
    exact strip_last_not_space line c t (hstrip.trans hct)

/-- C5 witness: a concrete flagged line with leading whitespace. -/
theorem claim_C5_witness :
    ∃ line pre suf, line ∈ splitNL (ScanResult.written ⟨[ ' ', 'あ' ], [[ 'あ' ]]⟩) ∧
      flagged line = true ∧
      [ 'あ' ] = strip line ∧ line = pre ++ [ 'あ' ] ++ suf ∧
      pre.all isPySpace = true ∧ suf.all isPySpace = true ∧
      (∀ c t, ([ 'あ' ] : Str) = c :: t → isPySpace c = false) ∧
      (∀ c t, ([ 'あ' ] : Str) = t ++ [c] → isPySpace c = false) :=
  claim_C5 [ ' ', 'あ' ] [] ⟨[ ' ', 'あ' ], [[ 'あ' ]]⟩ (by decide) [ 'あ' ] (by decide)

/-- C7: appliedCount is incremented exactly once per rule whose pattern
occurs in the current in-memory text when the rule is processed and not at
all for an absent pattern; a firing rule rewrites the text by replacing
every leftmost non-overlapping occurrence of its pattern: the text splits
into pieces free of the pattern which the pattern joins, and the replaced
text is the same pieces joined by the replacement. -/
theorem claim_C7 (s : Str) (n : Nat) (old new : Str) :
    (strContains old s = true →
      applyStep (s, n) (old, new) = (pyReplace s old new, n + 1)) ∧
    (strContains old s = false → applyStep (s, n) (old, new) = (s, n)) ∧
    (old ≠ [] →
      joinSep old (splitStr old s) = s ∧
      pyReplace s old new = joinSep new (splitStr old s) ∧
      ∀ piece ∈ splitStr old s, strContains old piece = false) := by
  refine ⟨?_, ?_, ?_⟩
  · intro h
    simp [applyStep, h]
  · intro h
    simp [applyStep, h]
  · intro h
    refine ⟨joinSep_splitFuel old h s.length s le_rfl, ?_,
      splitFuel_no_occ old h s.length s le_rfl⟩
    rw [pyReplace, if_neg h]
    exact pyReplaceFuel_joinSep old new h s.length s le_rfl

/-- C7 witness: a firing rule, an absent rule, and the piece decomposition,
on concrete inputs. -/
theorem claim_C7_witness :
    applyStep ([ 'a', 'b', 'a' ], 0) ([ 'a' ], [ 'c', 'c' ]) =
      (pyReplace [ 'a', 'b', 'a' ] [ 'a' ] [ 'c', 'c' ], 1) ∧
    applyStep ([ 'a', 'b' ], 0) ([ 'x' ], [ 'z' ]) = ([ 'a', 'b' ], 0) ∧
    joinSep [ 'a' ] (splitStr [ 'a' ] [ 'a', 'b', 'a' ]) = [ 'a', 'b', 'a' ] :=
  ⟨(claim_C7 [ 'a', 'b', 'a' ] 0 [ 'a' ] [ 'c', 'c' ]).1 (by decide),
   (claim_C7 [ 'a', 'b' ] 0 [ 'x' ] [ 'z' ]).2.1 (by decide),
   ((claim_C7 [ 'a', 'b', 'a' ] 0 [ 'a' ] [ 'c', 'c' ]).2.2 (by decide)).1⟩

/-- C8: parse_log of a missing or unreadable file is the empty sequence (and
being a total function it raises nothing); parse_log of readable content is
the newline-separated fields of the content, each trimmed of leading and
trailing whitespace, empty results omitted, in file order; consequently
every returned line is non-empty and neither starts nor ends with
whitespace. -/
theorem claim_C8 :
    parse_log none = [] ∧
    (∀ content : Str, parse_log (some content) =
      ((splitNL content).map strip).filter (fun l => decide (l ≠ []))) ∧
    ∀ (file : Option Str) (l : Str), l ∈ parse_log file →
      l ≠ [] ∧ (∀ c t, l = c :: t → isPySpace c = false) ∧
        (∀ c t, l = t ++ [c] → isPySpace c = false) := by
  refine ⟨rfl, ?_, ?_⟩
  · intro content
    obtain ⟨l, ls, h⟩ := splitNL_obtain content
    have hlines : pyLines content = glueNL (l :: ls) := by
      have := pyLinesAux_glueNL content [] l ls h
      simpa [pyLines] using this
    simp only [parse_log]
    rw [hlines, glueNL_strip_filter ls l, ← h]
  · intro file l hl
    cases file with
    | none => simp [parse_log] at hl
    | some content =>
      simp only [parse_log, List.mem_filter, decide_eq_true_eq] at hl
      obtain ⟨hmem, hne⟩ := hl
      obtain ⟨line, _, hstrip⟩ := List.mem_map.mp hmem
      refine ⟨hne, ?_, ?_⟩
      · intro c t hct
        exact strip_head_not_space line c t (hstrip.trans hct)
      · intro c t hct
        exact strip_last_not_space line c t (hstrip.trans hct)

/-- C8 witness: a concrete file whose middle whitespace-only line is
dropped and whose first line is returned trimmed. -/
theorem claim_C8_witness :
    [ 'a' ] ∈ parse_log (some [ ' ', 'a', ' ', '\n', ' ', '\n', 'b' ]) ∧ [ 'a' ] ≠ [] :=
  ⟨by decide,
    (claim_C8.2.2 (some [ ' ', 'a', ' ', '\n', ' ', '\n', 'b' ]) [ 'a' ] (by decide)).1⟩

/-- C9: if one run of the detector rewrote the document to a text on which
re-applying each configured old-to-new replacement changes nothing, then a
second run on that rewritten document writes back exactly the same text and
logs exactly the same findings — the second run changes nothing. -/
theorem claim_C9 (content : Str) (repls : List (Str × Str)) (r : ScanResult)
    (h1 : check_languages true content repls = some r)
    (h2 : ∀ q ∈ repls, pyReplace r.written q.1 (q.2 ++ [ ' ' ]) = r.written) :
    check_languages true r.written repls = some r := by
  rw [check_languages, if_pos rfl] at h1
  have hr := Option.some.inj h1
  subst hr
  rw [check_languages, if_pos rfl]
  rw [applyConfigured_fixed repls _ h2]

/-- C9 witness: a concrete idempotent rerun. -/
theorem claim_C9_witness :
    check_languages true [ 'い', ' ' ] [([ 'あ' ], [ 'い' ])] =
      some ⟨[ 'い', ' ' ], [[ 'い' ]]⟩ :=
  claim_C9 [ 'あ' ] [([ 'あ' ], [ 'い' ])] ⟨[ 'い', ' ' ], [[ 'い' ]]⟩
    (by decide) (by decide)

/-- C10: when the document path does not exist check_languages performs no
write at all — neither the document nor the findings log is touched; when
the document exists a result is always produced, meaning the findings log
is opened for writing and overwritten even when there are zero findings. -/
theorem claim_C10 :
    (∀ (content : Str) (repls : List (Str × Str)),
      check_languages false content repls = none) ∧
    (∀ (content : Str) (repls : List (Str × Str)),
      (check_languages true content repls).isSome = true) ∧
    check_languages true [ 'x' ] [] = some ⟨[ 'x' ], []⟩ := by
  refine ⟨fun content repls => rfl, fun content repls => ?_, by decide⟩
  rw [check_languages, if_pos rfl]
  rfl
